import Mathlib

/-!
Verification of the VOW partial-collision engine of
`partial-sha2-collision-with-oneapi` (`main.cpp`).

Byte buffers are modelled as `List Nat` (each element one byte).  The SHA-2
primitive is invoked by the engine as a black box (the C++ code is templated
over `HASH`), so every definition here is parameterised by a hash function
`H : List Nat → List Nat` mapping an input buffer to a digest buffer.
-/

namespace VOW

/-- The byte type of the model: a machine byte is a `Nat` (values `< 256`). -/
abbrev Bytes := List Nat

/-- A hash primitive: maps an input buffer to a digest buffer
(`update`/`digest` of one of the SHA-2 classes in `sha2.hpp`). -/
abbrev HashF := Bytes → Bytes

/-- `constexpr static auto N = 8;` — partial collision length. -/
def N : Nat := 8

/-- `constexpr static auto K = 2;` — distinguishable-point condition length. -/
def K : Nat := 2

/-- `constexpr auto prefix = {0x00, 0x11, 0x22, 0x33};` (named `pfx`
because `prefix` is not usable as an identifier here). -/
def pfx : Bytes := [0x00, 0x11, 0x22, 0x33]

/-- `constexpr auto suffix = {0x33, 0x22, 0x11, 0x00};` -/
def sfx : Bytes := [0x33, 0x22, 0x11, 0x00]

/-- `constexpr auto THREADS = 20'000;` -/
def THREADS : Nat := 20000

/-- `constexpr auto BATCH_SIZE = 100'000;` -/
def BATCH_SIZE : Nat := 100000

/-- `constexpr auto DP_ARRAY_LEN = 100;` -/
def DP_ARRAY_LEN : Nat := 100

/-- Size of `HASH_IN<HASH>`: `prefix.size() + suffix.size() + N`. -/
def HASH_IN_SIZE : Nat := pfx.length + sfx.length + N

/-- Digest size of the configured variant (`SHA256::OUTPUT_SIZE = 32`). -/
def DIGEST_SIZE : Nat := 32

/-- `std::copy(src.begin(), src.end(), buf.begin() + off)`: overwrite the
bytes of `buf` starting at offset `off` with the bytes of `src`, one
element at a time. -/
def writeRange : Bytes → Nat → Bytes → Bytes
  | buf, _, [] => buf
  | buf, off, b :: rest => writeRange (buf.set off b) (off + 1) rest

/-- `format_input` from `main.cpp`: a `HASH_IN`-sized buffer is filled by
three `std::copy` calls: the prefix at offset 0, the first
`INPUT_SPACE = HASH_IN_SIZE - (|pfx| + |sfx|)` bytes of the digest after the
prefix, and the suffix after that.  (The C++ buffer starts uninitialised;
every byte is overwritten, so the model starts from zeros.) -/
def format_input (hash : Bytes) : Bytes :=
  let inputSpace := HASH_IN_SIZE - (pfx.length + sfx.length)
  writeRange
    (writeRange
      (writeRange (List.replicate HASH_IN_SIZE 0) 0 pfx)
      pfx.length (hash.take inputSpace))
    (pfx.length + inputSpace) sfx

/-- The layout the spec prescribes for `format`: `P ‖ h[0..N] ‖ S`. -/
def format_spec (hash : Bytes) : Bytes := pfx ++ hash.take N ++ sfx

lemma length_writeRange (src : Bytes) :
    ∀ (buf : Bytes) (off : Nat), (writeRange buf off src).length = buf.length := by
  induction src with
  | nil => intro buf off; rfl
  | cons b rest ih =>
      intro buf off
      simp [writeRange, ih, List.length_set]

lemma set_take_succ {α : Type} : ∀ (l : List α) (n : Nat) (a : α), n < l.length →
    (l.set n a).take (n + 1) = l.take n ++ [a] := by
  intro l
  induction l with
  | nil => intro n a h; simp at h
  | cons x xs ih =>
      intro n a h
      cases n with
      | zero => simp [List.set]
      | succ m =>
          simp only [List.set, List.take_succ_cons]
          rw [ih m a (by simpa using h)]
          simp

lemma set_drop_of_lt {α : Type} : ∀ (l : List α) (n m : Nat) (a : α), n < m →
    (l.set n a).drop m = l.drop m := by
  intro l
  induction l with
  | nil => intro n m a _; simp
  | cons x xs ih =>
      intro n m a h
      cases n with
      | zero =>
          cases m with
          | zero => omega
          | succ m' => simp [List.set]
      | succ n' =>
          cases m with
          | zero => omega
          | succ m' =>
              simp only [List.set, List.drop_succ_cons]
              exact ih n' m' a (by omega)

lemma writeRange_eq (src : Bytes) : ∀ (buf : Bytes) (off : Nat),
    off + src.length ≤ buf.length →
    writeRange buf off src = buf.take off ++ src ++ buf.drop (off + src.length) := by
  induction src with
  | nil => intro buf off _; simp [writeRange]
  | cons b rest ih =>
      intro buf off h
      simp only [List.length_cons] at h
      have hofflt : off < buf.length := by omega
      have hlen : (off + 1) + rest.length ≤ (buf.set off b).length := by
        rw [List.length_set]; omega
      calc writeRange buf off (b :: rest)
          = writeRange (buf.set off b) (off + 1) rest := rfl
        _ = (buf.set off b).take (off + 1) ++ rest ++
              (buf.set off b).drop ((off + 1) + rest.length) := ih _ _ hlen
        _ = (buf.take off ++ [b]) ++ rest ++ buf.drop (off + (b :: rest).length) := by
              have h1 := set_take_succ buf off b hofflt
              have h2 := set_drop_of_lt buf off ((off + 1) + rest.length) b (by omega)
              rw [h1, h2]
              congr 2
              simp only [List.length_cons]
              omega
        _ = buf.take off ++ (b :: rest) ++ buf.drop (off + (b :: rest).length) := by
              simp

lemma format_input_eq_spec (hash : Bytes) (h : N ≤ hash.length) :
    format_input hash = pfx ++ hash.take N ++ sfx := by
  simp only [N] at h
  have htake : (hash.take 8).length = 8 := by
    simp [List.length_take]
    omega
  show writeRange (writeRange (writeRange (List.replicate 16 0) 0 pfx) 4
      (hash.take 8)) 12 sfx = pfx ++ hash.take 8 ++ sfx
  rw [writeRange_eq pfx (List.replicate 16 0) 0 (by simp [pfx])]
  rw [writeRange_eq (hash.take 8) _ 4 (by simp [pfx, sfx, htake])]
  rw [writeRange_eq sfx _ 12 (by simp [pfx, sfx, htake])]
  simp [pfx, sfx, List.take_append_eq_append_take, htake,
    List.drop_append_eq_append_drop, List.replicate, List.take_succ_cons,
    List.drop_succ_cons]

/-- C10 — `format_input` returns a buffer of exactly length
`L = |P| + N + |S|` laid out as `P ‖ h[0..N] ‖ S` (first `N` digest bytes
unchanged, no transform), for every digest with at least `N` bytes —
in particular for every digest size `D` of the supported variants. -/
theorem C10_format_layout (hash : Bytes) (h : N ≤ hash.length) :
    format_input hash = pfx ++ hash.take N ++ sfx ∧
      (format_input hash).length = pfx.length + N + sfx.length := by
  have h8 : 8 ≤ hash.length := by simpa [N] using h
  refine ⟨format_input_eq_spec hash h, ?_⟩
  rw [format_input_eq_spec hash h]
  simp [pfx, sfx, N, List.length_take]
  omega

/-- C10 witness: the theorem applied to a concrete 32-byte digest. -/
theorem C10_format_layout_witness :
    N ≤ (List.range 32).length ∧
      (format_input (List.range 32) = pfx ++ (List.range 32).take N ++ sfx ∧
        (format_input (List.range 32)).length = pfx.length + N + sfx.length) :=
  ⟨by decide, C10_format_layout (List.range 32) (by decide)⟩

/-- Little-endian byte decomposition of a machine integer of `w` bytes,
as laid down in memory by `*reinterpret_cast<T *>(p) = v` on x86-64. -/
def leBytes : Nat → Nat → Bytes
  | 0, _ => []
  | w + 1, v => v % 256 :: leBytes w (v / 256)

/-- `hash_from_seed` as invoked from the kernel
(`State<HASH>{static_cast<uint32_t>(idx)}`): `HASH_OUT<HASH> hash = {0};`
then a 4-byte (`uint32_t`) little-endian store of the seed at offset 0. -/
def hash_from_seed (seed : Nat) : Bytes :=
  writeRange (List.replicate DIGEST_SIZE 0) 0 (leBytes 4 seed)

/-- `hash_from_seed` as invoked from the host loop
(`hash_from_seed<HASH>(i)` with `i : std::size_t`): an 8-byte store. -/
def hash_from_seed_host (seed : Nat) : Bytes :=
  writeRange (List.replicate DIGEST_SIZE 0) 0 (leBytes 8 seed)

lemma leBytes_length : ∀ (w v : Nat), (leBytes w v).length = w := by
  intro w
  induction w with
  | zero => intro v; rfl
  | succ w ih => intro v; simp [leBytes, ih]

lemma leBytes_zero : ∀ (w : Nat), leBytes w 0 = List.replicate w 0 := by
  intro w
  induction w with
  | zero => rfl
  | succ w ih => simp [leBytes, ih, List.replicate]

lemma leBytes_split : ∀ (k j v : Nat), v < 256 ^ k →
    leBytes (k + j) v = leBytes k v ++ List.replicate j 0 := by
  intro k
  induction k with
  | zero =>
      intro j v hv
      have : v = 0 := by simpa using hv
      subst this
      simp [leBytes, leBytes_zero]
  | succ k ih =>
      intro j v hv
      have hdiv : v / 256 < 256 ^ k := by
        rw [Nat.div_lt_iff_lt_mul (by norm_num)]
        calc v < 256 ^ (k + 1) := hv
        _ = 256 ^ k * 256 := by ring
      have harith : k + 1 + j = (k + j) + 1 := by omega
      rw [harith]
      simp only [leBytes]
      rw [ih j (v / 256) hdiv]
      simp

lemma hash_from_seed_eq (seed : Nat) :
    hash_from_seed seed = leBytes 4 seed ++ List.replicate 28 0 := by
  unfold hash_from_seed
  rw [writeRange_eq _ _ _ (by simp [leBytes_length, DIGEST_SIZE])]
  simp [leBytes_length, DIGEST_SIZE]

lemma hash_from_seed_host_eq (seed : Nat) (h : seed < 2 ^ 32) :
    hash_from_seed_host seed = hash_from_seed seed := by
  have h256 : seed < 256 ^ 4 := by norm_num at h ⊢; omega
  have hsplit : leBytes 8 seed = leBytes 4 seed ++ List.replicate 4 0 := by
    simpa using leBytes_split 4 4 seed h256
  unfold hash_from_seed_host
  rw [writeRange_eq _ _ _ (by simp [leBytes_length, DIGEST_SIZE])]
  rw [hash_from_seed_eq, hsplit]
  simp only [DIGEST_SIZE, List.take_zero, List.nil_append, List.length_append,
    leBytes_length, List.length_replicate, Nat.zero_add, List.append_assoc]
  congr 1

/-- `ZERO_HASH`: the all-zero digest (`HASH_OUT<HASH>{0}`). -/
def ZERO_HASH : Bytes := List.replicate DIGEST_SIZE 0

/-- The DP predicate on a digest:
`memcmp(hash.data(), ZERO_HASH.data(), K) == 0`. -/
def is_dpD (d : Bytes) : Bool := d.take K == ZERO_HASH.take K

lemma is_dpD_iff (d : Bytes) : is_dpD d = true ↔ d.take K = List.replicate K 0 := by
  simp [is_dpD, ZERO_HASH, K, DIGEST_SIZE]

/-- A DP record: `struct DP { HASH_IN in; HASH_OUT hash; std::size_t
steps_since_last_dp; }` (the field `in` is called `inp` here). -/
structure DP where
  inp : Bytes := []
  hash : Bytes := []
  steps_since_last_dp : Nat := 0
deriving DecidableEq

/-- A default-constructed `DP`. -/
def d0 : DP := {}

/-- `struct DPArray { std::array<DP, DP_ARRAY_LEN> data; std::size_t
dp_count; }`. -/
structure DPArray where
  data : List DP
  dp_count : Nat
deriving DecidableEq

/-- `DPArray::append`: `data[dp_count] = DP{in, hash, steps}; ++dp_count;`
with no bounds check (an out-of-range store is modelled by `List.set`'s
out-of-range no-op; in C++ it is an out-of-bounds write). -/
def DPArray.append (a : DPArray) (inp hash : Bytes) (steps : Nat) : DPArray :=
  { data := a.data.set a.dp_count ⟨inp, hash, steps⟩, dp_count := a.dp_count + 1 }

/-- The records between `begin()` and `end()`. -/
def DPArray.records (a : DPArray) : List DP := a.data.take a.dp_count

/-- A cleared per-worker DP array. -/
def emptyDPArray : DPArray := ⟨List.replicate DP_ARRAY_LEN d0, 0⟩

lemma DPArray.records_append (a : DPArray) (inp hash : Bytes) (steps : Nat)
    (h : a.dp_count < a.data.length) :
    (a.append inp hash steps).records = a.records ++ [⟨inp, hash, steps⟩] := by
  unfold DPArray.append DPArray.records
  exact set_take_succ a.data a.dp_count _ h

/-- `struct State`: the per-worker walker state.  The C++ member
`dp_array` is a pointer to the worker's own `DPArray`; the array itself is
inlined here as `buf`. -/
structure State where
  hash_count : Nat
  steps_since_last_dp : Nat
  last_dp : Bytes
  hash : Bytes
  buf : DPArray
deriving DecidableEq

/-- The `State(uint32_t seed)` constructor: start from
`hash_from_seed(seed)`, format it, hash it once, bump both counters; the
DP array is the cleared one the kernel hands to the worker.  No DP test is
performed. -/
def State.init (H : HashF) (seed : Nat) : State :=
  let h0 := hash_from_seed seed
  let input := format_input h0
  { hash_count := 0 + 1
    steps_since_last_dp := 0 + 1
    last_dp := input
    hash := H input
    buf := emptyDPArray }

/-- `State::step()`: format the current digest, hash it, bump both
counters; on a DP, record ⟨input, digest, steps⟩, remember the input and
reset the sub-chain counter. -/
def State.step (H : HashF) (s : State) : State :=
  let input := format_input s.hash
  let newHash := H input
  let s1 : State := { s with
    hash := newHash
    steps_since_last_dp := s.steps_since_last_dp + 1
    hash_count := s.hash_count + 1 }
  if is_dpD newHash then
    { s1 with
      buf := s1.buf.append input newHash s1.steps_since_last_dp
      last_dp := input
      steps_since_last_dp := 0 }
  else s1

/-- `device_dp_arrays[idx].dp_count = 0` at the start of a batch. -/
def State.clearBuf (s : State) : State := { s with buf := { s.buf with dp_count := 0 } }

/-- `n` consecutive `step()` calls. -/
def stepN (H : HashF) (n : Nat) (s : State) : State := (State.step H)^[n] s

/-- The fixed-point map `f(h) = SHA(P ‖ h[0..N] ‖ S)` iterated by every walk. -/
def fMap (H : HashF) (d : Bytes) : Bytes := H (format_input d)

/-- `DP_KEY::operator==`: `memcmp(hash, other.hash, N) == 0`. -/
def dpKeyEq (d e : Bytes) : Bool := d.take N == e.take N

/-- A little-endian machine word assembled from a byte list. -/
def leWord (l : Bytes) : Nat := l.foldr (fun b acc => b + 256 * acc) 0

/-- `std::hash<DP_KEY<HASH>>`: dereference of
`reinterpret_cast<const std::size_t *>(v.hash.data() + K)`, i.e. the 8-byte
little-endian word over digest bytes `[K, K+8)` on x86-64. -/
def dpKeyHash (d : Bytes) : Nat := leWord ((d.drop K).take 8)

/-- C6 — walker initialisation from a 32-bit seed: the starting digest is
all-zero except the 4 little-endian seed bytes; one iteration is performed
during construction, leaving `hash = f(seed_digest)`,
`last_dp = format(seed_digest)`, both counters at 1, and an empty DP
buffer (the seed digest is never DP-tested: no record is produced). -/
theorem C6_seed_initialization (H : HashF) (w : Nat) (hw : w < 2 ^ 32) :
    hash_from_seed w = leBytes 4 w ++ List.replicate 28 0 ∧
    State.init H w = { hash_count := 1
                       steps_since_last_dp := 1
                       last_dp := format_input (hash_from_seed w)
                       hash := fMap H (hash_from_seed w)
                       buf := emptyDPArray } ∧
    (State.init H w).buf.records = [] := by
  refine ⟨hash_from_seed_eq w, rfl, rfl⟩

/-- C6 witness: the theorem instantiated at seed 3. -/
theorem C6_seed_initialization_witness :
    3 < 2 ^ 32 ∧
      (hash_from_seed 3 = leBytes 4 3 ++ List.replicate 28 0 ∧
        State.init (fun _ => ZERO_HASH) 3 = { hash_count := 1
                                              steps_since_last_dp := 1
                                              last_dp := format_input (hash_from_seed 3)
                                              hash := fMap (fun _ => ZERO_HASH) (hash_from_seed 3)
                                              buf := emptyDPArray } ∧
        (State.init (fun _ => ZERO_HASH) 3).buf.records = []) :=
  ⟨by decide, C6_seed_initialization (fun _ => ZERO_HASH) 3 (by decide)⟩

/-- C5 — one `step()` call: the digest becomes `H(format(hash))`,
`hash_count` is incremented; exactly when the new digest starts with `K`
zero bytes, ⟨input, new digest, incremented sub-chain counter⟩ is appended
to the DP buffer, `last_dp` becomes the input and the sub-chain counter
resets to 0; otherwise buffer and `last_dp` are unchanged and the
sub-chain counter is incremented.  (The buffer hypotheses say the append
stays inside the fixed-capacity array; without them the C++ write is out
of bounds — see C8.) -/
theorem C5_step_semantics (H : HashF) (s : State)
    (hlen : s.buf.data.length = DP_ARRAY_LEN) (hcnt : s.buf.dp_count < DP_ARRAY_LEN) :
    (State.step H s).hash = H (format_input s.hash) ∧
    (State.step H s).hash_count = s.hash_count + 1 ∧
    ((H (format_input s.hash)).take K = List.replicate K 0 →
      (State.step H s).buf.records = s.buf.records ++
          [⟨format_input s.hash, H (format_input s.hash), s.steps_since_last_dp + 1⟩] ∧
      (State.step H s).last_dp = format_input s.hash ∧
      (State.step H s).steps_since_last_dp = 0) ∧
    ((H (format_input s.hash)).take K ≠ List.replicate K 0 →
      (State.step H s).buf = s.buf ∧
      (State.step H s).last_dp = s.last_dp ∧
      (State.step H s).steps_since_last_dp = s.steps_since_last_dp + 1) := by
  by_cases h : is_dpD (H (format_input s.hash)) = true
  · have hne := (is_dpD_iff _).mp h
    have hstep : State.step H s =
        { hash_count := s.hash_count + 1
          steps_since_last_dp := 0
          last_dp := format_input s.hash
          hash := H (format_input s.hash)
          buf := s.buf.append (format_input s.hash) (H (format_input s.hash))
                   (s.steps_since_last_dp + 1) } := by
      simp [State.step, h]
    refine ⟨by rw [hstep], by rw [hstep], fun _ => ⟨?_, by rw [hstep], by rw [hstep]⟩,
      fun hc => absurd hne hc⟩
    rw [hstep]
    exact DPArray.records_append _ _ _ _ (by rw [hlen]; exact hcnt)
  · have hne : ¬ (H (format_input s.hash)).take K = List.replicate K 0 := by
      rw [← is_dpD_iff]; simpa using h
    have hstep : State.step H s =
        { s with
          hash := H (format_input s.hash)
          steps_since_last_dp := s.steps_since_last_dp + 1
          hash_count := s.hash_count + 1 } := by
      simp [State.step, h]
    refine ⟨by rw [hstep], by rw [hstep], fun hc => absurd hc hne,
      fun _ => ⟨by rw [hstep], by rw [hstep], by rw [hstep]⟩⟩

/-- A trivial hash function for witnesses: every input hashes to the
all-zero digest (so every digest is a DP). -/
def hZero : HashF := fun _ => ZERO_HASH

/-- C5 witness: the theorem applied to a freshly initialised walker under
`hZero` (the DP branch fires). -/
theorem C5_step_semantics_witness :
    ((State.init hZero 0).buf.data.length = DP_ARRAY_LEN ∧
      (State.init hZero 0).buf.dp_count < DP_ARRAY_LEN) ∧
    ((State.step hZero (State.init hZero 0)).hash =
        hZero (format_input (State.init hZero 0).hash) ∧
      (State.step hZero (State.init hZero 0)).hash_count =
        (State.init hZero 0).hash_count + 1 ∧
      ((hZero (format_input (State.init hZero 0).hash)).take K = List.replicate K 0 →
        (State.step hZero (State.init hZero 0)).buf.records =
            (State.init hZero 0).buf.records ++
            [⟨format_input (State.init hZero 0).hash,
              hZero (format_input (State.init hZero 0).hash),
              (State.init hZero 0).steps_since_last_dp + 1⟩] ∧
        (State.step hZero (State.init hZero 0)).last_dp =
            format_input (State.init hZero 0).hash ∧
        (State.step hZero (State.init hZero 0)).steps_since_last_dp = 0) ∧
      ((hZero (format_input (State.init hZero 0).hash)).take K ≠ List.replicate K 0 →
        (State.step hZero (State.init hZero 0)).buf = (State.init hZero 0).buf ∧
        (State.step hZero (State.init hZero 0)).last_dp = (State.init hZero 0).last_dp ∧
        (State.step hZero (State.init hZero 0)).steps_since_last_dp =
            (State.init hZero 0).steps_since_last_dp + 1)) :=
  ⟨⟨by decide, by decide⟩,
    C5_step_semantics hZero (State.init hZero 0) (by decide) (by decide)⟩

/-- C8 — the DP-buffer append is NOT bounds-checked: under a hash function
that makes every digest a DP, `DP_ARRAY_LEN + 1` steps of one batch drive
`dp_count` to `DP_ARRAY_LEN + 1`, so the final `append` stored through
`data[DP_ARRAY_LEN]`, one past the end of the array — out-of-bounds in
C++, contradicting the claim that recording stops (truncates/aborts)
before the array is exceeded. -/
theorem C8_append_overflows :
    (stepN hZero DP_ARRAY_LEN (State.init hZero 0)).buf.dp_count = DP_ARRAY_LEN ∧
    (stepN hZero (DP_ARRAY_LEN + 1) (State.init hZero 0)).buf.dp_count =
      DP_ARRAY_LEN + 1 ∧
    DP_ARRAY_LEN + 1 ≤ BATCH_SIZE := by
  refine ⟨?_, ?_, by decide⟩ <;> decide

/-- C4 — the bucket hash of `std::hash<DP_KEY>` reads digest bytes
`[K, K+8) = [2, 10)` while `DP_KEY::operator==` compares bytes `[0, N) =
[0, 8)`: two digests that compare equal (bytes 0..7 agree) but differ at
byte 8 receive different bucket hashes, so the hash depends on bytes the
equality does not read — refuting the claim. -/
theorem C4_hash_inconsistent_with_eq :
    dpKeyEq (List.replicate DIGEST_SIZE 0) ((List.replicate DIGEST_SIZE 0).set 8 1) = true ∧
    dpKeyHash (List.replicate DIGEST_SIZE 0) ≠
      dpKeyHash ((List.replicate DIGEST_SIZE 0).set 8 1) := by
  decide

/-- `struct StageOneResult` (uninitialised members default as in C++). -/
structure StageOneResult where
  x_steps : Nat := 0
  y_steps : Nat := 0
  total_hash_counts : Nat := 0
  x : Bytes := []
  y : Bytes := []
  dp_collided : Bytes := []
  found : Bool := false
deriving DecidableEq

/-- `struct StageTwoState`: ⟨current input, current digest, hash count⟩
(the C++ members `in` / `out`). -/
structure StageTwoState where
  inp : Bytes
  out : Bytes
  hash_count : Nat
deriving DecidableEq

/-- The `StageTwoState(in)` constructor: hash the given input once. -/
def StageTwoState.init (H : HashF) (i : Bytes) : StageTwoState :=
  { inp := i, out := H i, hash_count := 0 + 1 }

/-- `StageTwoState::step()`: fold the digest back into an input, hash. -/
def StageTwoState.step (H : HashF) (s : StageTwoState) : StageTwoState :=
  { inp := format_input s.out
    out := H (format_input s.out)
    hash_count := s.hash_count + 1 }

/-- `StageTwoState::operator==`: `memcmp(out, other.out, N) == 0`. -/
def s2eq (s t : StageTwoState) : Bool := s.out.take N == t.out.take N

/-- `for (; x_steps > y_steps; --x_steps) x_state.step();` -/
def alignX (H : HashF) : StageTwoState → Nat → Nat → StageTwoState × Nat
  | s, 0, _ => (s, 0)
  | s, xs + 1, ys =>
      if ys < xs + 1 then alignX H (StageTwoState.step H s) xs ys else (s, xs + 1)

/-- `for (; x_steps < y_steps; --y_steps) y_state.step();` -/
def alignY (H : HashF) : StageTwoState → Nat → Nat → StageTwoState × Nat
  | s, _, 0 => (s, 0)
  | s, xs, ys + 1 =>
      if xs < ys + 1 then alignY H (StageTwoState.step H s) xs ys else (s, ys + 1)

/-- `for (; x_state != y_state && x_steps > 0 && y_steps > 0; --x_steps,
--y_steps) { x_state.step(); y_state.step(); }` -/
def walkBoth (H : HashF) :
    StageTwoState → StageTwoState → Nat → Nat →
      StageTwoState × StageTwoState × Nat × Nat
  | x, y, 0, ys => (x, y, 0, ys)
  | x, y, xs + 1, 0 => (x, y, xs + 1, 0)
  | x, y, xs + 1, ys + 1 =>
      if s2eq x y then (x, y, xs + 1, ys + 1)
      else walkBoth H (StageTwoState.step H x) (StageTwoState.step H y) xs ys

/-- `vow_stage_two`: construct both states, align the step counters, then
walk both chains together; return both states. -/
def vow_stage_two (H : HashF) (stage_one : StageOneResult) :
    StageTwoState × StageTwoState :=
  let x_state := StageTwoState.init H stage_one.x
  let y_state := StageTwoState.init H stage_one.y
  let px := alignX H x_state stage_one.x_steps stage_one.y_steps
  let py := alignY H y_state px.2 stage_one.y_steps
  let w := walkBoth H px.1 py.1 px.2 py.2
  (w.1, w.2.1)

/-- The digests along the chain of the fixed-point map from input `start`:
index `n` holds the digest after `n + 1` hash evaluations (the first
evaluation being `H start`). -/
def chainFrom (H : HashF) (start : Bytes) : Nat → Bytes
  | 0 => H start
  | n + 1 => fMap H (chainFrom H start n)

/-- The inputs along the chain from input `x0`: index 0 is `x0` itself,
index `n + 1` is the formatted `n`-th digest. -/
def inputAt (H : HashF) (x0 : Bytes) : Nat → Bytes
  | 0 => x0
  | n + 1 => format_input (chainFrom H x0 n)

/-- The Stage 2 state after `k` `step()` calls on a freshly constructed
state. -/
def s2At (H : HashF) (i : Bytes) (k : Nat) : StageTwoState :=
  (StageTwoState.step H)^[k] (StageTwoState.init H i)

lemma s2At_zero (H : HashF) (i : Bytes) : s2At H i 0 = StageTwoState.init H i := rfl

lemma s2At_succ (H : HashF) (i : Bytes) (k : Nat) :
    s2At H i (k + 1) = StageTwoState.step H (s2At H i k) :=
  Function.iterate_succ_apply' _ _ _

lemma s2At_out (H : HashF) (i : Bytes) : ∀ k, (s2At H i k).out = chainFrom H i k := by
  intro k
  induction k with
  | zero => rfl
  | succ k ih =>
      rw [s2At_succ, chainFrom]
      show H (format_input (s2At H i k).out) = fMap H (chainFrom H i k)
      rw [ih]; rfl

lemma s2At_inp_succ (H : HashF) (i : Bytes) (k : Nat) :
    (s2At H i (k + 1)).inp = format_input (chainFrom H i k) := by
  rw [s2At_succ]
  show format_input (s2At H i k).out = _
  rw [s2At_out]

lemma s2At_out_eq (H : HashF) (i : Bytes) (k : Nat) :
    (s2At H i k).out = H ((s2At H i k).inp) := by
  cases k with
  | zero => rfl
  | succ k => rw [s2At_succ]; rfl

lemma alignX_eq (H : HashF) : ∀ (xs : Nat) (s : StageTwoState) (ys : Nat),
    alignX H s xs ys = ((StageTwoState.step H)^[xs - min xs ys] s, min xs ys) := by
  intro xs
  induction xs with
  | zero => intro s ys; simp [alignX]
  | succ xs ih =>
      intro s ys
      rw [alignX]
      by_cases h : ys < xs + 1
      · rw [if_pos h, ih]
        have h1 : min xs ys = ys := by omega
        have h2 : min (xs + 1) ys = ys := by omega
        have h3 : xs + 1 - ys = (xs - ys) + 1 := by omega
        rw [h1, h2, h3, Function.iterate_succ_apply]
      · rw [if_neg h]
        have h2 : min (xs + 1) ys = xs + 1 := by omega
        rw [h2]
        simp

lemma alignY_eq (H : HashF) : ∀ (ys : Nat) (s : StageTwoState) (xs : Nat),
    alignY H s xs ys = ((StageTwoState.step H)^[ys - min xs ys] s, min xs ys) := by
  intro ys
  induction ys with
  | zero => intro s xs; simp [alignY]
  | succ ys ih =>
      intro s xs
      rw [alignY]
      by_cases h : xs < ys + 1
      · rw [if_pos h, ih]
        have h1 : min xs ys = xs := by omega
        have h2 : min xs (ys + 1) = xs := by omega
        have h3 : ys + 1 - xs = (ys - xs) + 1 := by omega
        rw [h1, h2, h3, Function.iterate_succ_apply]
      · rw [if_neg h]
        have h2 : min xs (ys + 1) = ys + 1 := by omega
        rw [h2]
        simp

lemma s2eq_iff (s t : StageTwoState) :
    s2eq s t = true ↔ s.out.take N = t.out.take N := by
  simp [s2eq]

/-- The joint walk of Stage 2, specified: starting `v ≥ 1` steps before the
common DP on both (aligned) chains, it stops at the first point (scanning
forward) where the two digests agree on their first `N` bytes; such a
point exists because the digests at `v = 1` are the colliding DP. -/
lemma walkBoth_spec (H : HashF) (x y : Bytes) (a b : Nat)
    (hcoll : (chainFrom H x (a - 1)).take N = (chainFrom H y (b - 1)).take N) :
    ∀ v, 1 ≤ v → v ≤ a → v ≤ b →
      ∃ v', 1 ≤ v' ∧ v' ≤ v ∧
        walkBoth H (s2At H x (a - v)) (s2At H y (b - v)) v v =
          (s2At H x (a - v'), s2At H y (b - v'), v', v') ∧
        (chainFrom H x (a - v')).take N = (chainFrom H y (b - v')).take N ∧
        (v' = v ∨
          (chainFrom H x (a - (v' + 1))).take N ≠
            (chainFrom H y (b - (v' + 1))).take N) := by
  intro v
  induction v with
  | zero => intro h1 _ _; omega
  | succ v ih =>
      intro _ hva hvb
      by_cases heq : s2eq (s2At H x (a - (v + 1))) (s2At H y (b - (v + 1))) = true
      · refine ⟨v + 1, by omega, le_refl _, ?_, ?_, Or.inl rfl⟩
        · cases v with
          | zero => rw [walkBoth, if_pos heq]
          | succ v => rw [walkBoth, if_pos heq]
        · have := (s2eq_iff _ _).mp heq
          rwa [s2At_out, s2At_out] at this
      · have hne : ¬ (chainFrom H x (a - (v + 1))).take N =
            (chainFrom H y (b - (v + 1))).take N := by
          intro hc
          exact heq ((s2eq_iff _ _).mpr (by rwa [s2At_out, s2At_out]))
        have hv1 : 1 ≤ v := by
          by_contra hv0
          have : v = 0 := by omega
          subst this
          exact hne hcoll
        have hstep : walkBoth H (s2At H x (a - (v + 1))) (s2At H y (b - (v + 1)))
            (v + 1) (v + 1) =
            walkBoth H (s2At H x (a - v)) (s2At H y (b - v)) v v := by
          cases v with
          | zero => omega
          | succ v =>
              rw [walkBoth, if_neg (by simpa using heq)]
              rw [← s2At_succ, ← s2At_succ]
              congr 2 <;> omega
        obtain ⟨v', h1, h2, h3, h4, h5⟩ := ih hv1 (by omega) (by omega)
        refine ⟨v', h1, by omega, by rw [hstep, h3], h4, Or.inr ?_⟩
        rcases h5 with h5 | h5
        · subst h5
          exact hne
        · exact h5

lemma chainFrom_len (H : HashF) (hlen : ∀ m, N ≤ (H m).length) (x : Bytes) :
    ∀ k, N ≤ (chainFrom H x k).length := by
  intro k
  cases k with
  | zero => exact hlen x
  | succ k => exact hlen _

lemma format_input_inj_take (d1 d2 : Bytes) (h1 : N ≤ d1.length) (h2 : N ≤ d2.length)
    (h : format_input d1 = format_input d2) : d1.take N = d2.take N := by
  rw [format_input_eq_spec d1 h1, format_input_eq_spec d2 h2] at h
  exact List.append_cancel_left (List.append_cancel_right h)

/-- The degenerate Stage 1 results the spec warns about ("the inputs are
distinct unless the two chains were identical from the start"): after
aligning, the longer chain sits exactly on the other chain's start input,
so the joint walk can exit with both current inputs identical. -/
def degenerate (H : HashF) (x y : Bytes) (a b : Nat) : Prop :=
  (b < a ∧ format_input (chainFrom H x (a - b - 1)) = y) ∨
  (a < b ∧ format_input (chainFrom H y (b - a - 1)) = x)

lemma vow_stage_two_run (H : HashF) (r : StageOneResult)
    (ha : 1 ≤ r.x_steps) (hb : 1 ≤ r.y_steps)
    (hcoll : (chainFrom H r.x (r.x_steps - 1)).take N =
      (chainFrom H r.y (r.y_steps - 1)).take N) :
    ∃ v', 1 ≤ v' ∧ v' ≤ min r.x_steps r.y_steps ∧
      vow_stage_two H r = (s2At H r.x (r.x_steps - v'), s2At H r.y (r.y_steps - v')) ∧
      (chainFrom H r.x (r.x_steps - v')).take N =
        (chainFrom H r.y (r.y_steps - v')).take N ∧
      (v' = min r.x_steps r.y_steps ∨
        (chainFrom H r.x (r.x_steps - (v' + 1))).take N ≠
          (chainFrom H r.y (r.y_steps - (v' + 1))).take N) := by
  obtain ⟨v', h1, h2, h3, h4, h5⟩ :=
    walkBoth_spec H r.x r.y r.x_steps r.y_steps hcoll (min r.x_steps r.y_steps)
      (by omega) (by omega) (by omega)
  refine ⟨v', h1, h2, ?_, h4, h5⟩
  have hx : alignX H (StageTwoState.init H r.x) r.x_steps r.y_steps =
      (s2At H r.x (r.x_steps - min r.x_steps r.y_steps), min r.x_steps r.y_steps) := by
    rw [alignX_eq]; rfl
  have hy : alignY H (StageTwoState.init H r.y) (min r.x_steps r.y_steps) r.y_steps =
      (s2At H r.y (r.y_steps - min r.x_steps r.y_steps), min r.x_steps r.y_steps) := by
    rw [alignY_eq]
    have hmin : min (min r.x_steps r.y_steps) r.y_steps = min r.x_steps r.y_steps := by
      omega
    rw [hmin]
    rfl
  simp only [vow_stage_two, hx, hy]
  rw [h3]

/-- C1 (amended) — for every Stage 1 result with `x ≠ y` whose two chains
really do reach a common DP key (`x_steps`/`y_steps` f-iterations from
`x`/`y` give digests agreeing on the first `N` bytes, both counts ≥ 1,
digests at least `N` bytes wide), Stage 2 terminates with the first `N`
bytes of `SHA(x_state.in)` and `SHA(y_state.in)` equal; and the two final
inputs are distinct PROVIDED the result is not degenerate (the aligned
longer chain does not sit exactly on the other chain's start input). -/
theorem C1_stage_two_collision (H : HashF) (r : StageOneResult)
    (hlen : ∀ m, N ≤ (H m).length)
    (ha : 1 ≤ r.x_steps) (hb : 1 ≤ r.y_steps)
    (hcoll : (chainFrom H r.x (r.x_steps - 1)).take N =
      (chainFrom H r.y (r.y_steps - 1)).take N)
    (hxy : r.x ≠ r.y) :
    (H ((vow_stage_two H r).1.inp)).take N = (H ((vow_stage_two H r).2.inp)).take N ∧
    (¬ degenerate H r.x r.y r.x_steps r.y_steps →
      (vow_stage_two H r).1.inp ≠ (vow_stage_two H r).2.inp) := by
  obtain ⟨v', hv1, hv2, hrun, hEq, hdisj⟩ := vow_stage_two_run H r ha hb hcoll
  constructor
  · rw [hrun]
    show (H (s2At H r.x (r.x_steps - v')).inp).take N =
      (H (s2At H r.y (r.y_steps - v')).inp).take N
    rw [← s2At_out_eq H r.x (r.x_steps - v'), ← s2At_out_eq H r.y (r.y_steps - v'),
      s2At_out, s2At_out]
    exact hEq
  · intro hdeg hinp
    rw [hrun] at hinp
    by_cases hvm : v' = min r.x_steps r.y_steps
    · rcases Nat.lt_trichotomy r.x_steps r.y_steps with hab | hab | hab
      · -- x_steps < y_steps : x side unstepped, y side stepped ≥ 1 times
        apply hdeg
        right
        refine ⟨hab, ?_⟩
        have hx0 : r.x_steps - v' = 0 := by omega
        have hy1 : r.y_steps - v' = (r.y_steps - r.x_steps - 1) + 1 := by omega
        rw [hx0, hy1] at hinp
        rw [s2At_inp_succ] at hinp
        have hz : (s2At H r.x 0).inp = r.x := rfl
        rw [hz] at hinp
        exact hinp.symm
      · -- x_steps = y_steps : neither side stepped, inputs are x and y
        have hx0 : r.x_steps - v' = 0 := by omega
        have hy0 : r.y_steps - v' = 0 := by omega
        rw [hx0, hy0] at hinp
        exact hxy hinp
      · -- y_steps < x_steps : symmetric
        apply hdeg
        left
        refine ⟨hab, ?_⟩
        have hy0 : r.y_steps - v' = 0 := by omega
        have hx1 : r.x_steps - v' = (r.x_steps - r.y_steps - 1) + 1 := by omega
        rw [hy0, hx1] at hinp
        rw [s2At_inp_succ] at hinp
        have hz : (s2At H r.y 0).inp = r.y := rfl
        rw [hz] at hinp
        exact hinp
    · -- the walk exited strictly before the alignment point
      have hneq := hdisj.resolve_left hvm
      have hx1 : r.x_steps - v' = (r.x_steps - v' - 1) + 1 := by omega
      have hy1 : r.y_steps - v' = (r.y_steps - v' - 1) + 1 := by omega
      rw [hx1, s2At_inp_succ, hy1, s2At_inp_succ] at hinp
      apply hneq
      have h1 : r.x_steps - (v' + 1) = r.x_steps - v' - 1 := by omega
      have h2 : r.y_steps - (v' + 1) = r.y_steps - v' - 1 := by omega
      rw [h1, h2]
      exact format_input_inj_take _ _ (chainFrom_len H hlen r.x _)
        (chainFrom_len H hlen r.y _) hinp

/-- A concrete degenerate Stage 1 result: the `x` chain walks through the
formatted all-zero digest, which is exactly `y`. -/
def rDegen : StageOneResult :=
  { x_steps := 2
    y_steps := 1
    x := List.replicate HASH_IN_SIZE 0
    y := format_input ZERO_HASH
    dp_collided := ZERO_HASH
    found := true }

/-- C1 counterexample — the claim as stated (final inputs ALWAYS distinct
whenever `x ≠ y`) is false: for this Stage 1 result the chains genuinely
reach a common DP key and `x ≠ y`, yet Stage 2 terminates with both
current inputs byte-identical. -/
theorem C1_counterexample :
    1 ≤ rDegen.x_steps ∧ 1 ≤ rDegen.y_steps ∧
    (chainFrom hZero rDegen.x (rDegen.x_steps - 1)).take N =
      (chainFrom hZero rDegen.y (rDegen.y_steps - 1)).take N ∧
    rDegen.x ≠ rDegen.y ∧
    (vow_stage_two hZero rDegen).1.inp = (vow_stage_two hZero rDegen).2.inp := by
  decide

/-- A concrete non-degenerate Stage 1 result for the C1 witness. -/
def rGood : StageOneResult :=
  { x_steps := 1
    y_steps := 1
    x := List.replicate HASH_IN_SIZE 0
    y := List.replicate HASH_IN_SIZE 1
    dp_collided := ZERO_HASH
    found := true }

/-- C1 witness: the amended theorem applied to a concrete non-degenerate
result, all hypotheses discharged by evaluation. -/
theorem C1_stage_two_collision_witness :
    ((∀ m, N ≤ (hZero m).length) ∧ 1 ≤ rGood.x_steps ∧ 1 ≤ rGood.y_steps ∧
      (chainFrom hZero rGood.x (rGood.x_steps - 1)).take N =
        (chainFrom hZero rGood.y (rGood.y_steps - 1)).take N ∧
      rGood.x ≠ rGood.y ∧
      ¬ degenerate hZero rGood.x rGood.y rGood.x_steps rGood.y_steps) ∧
    ((hZero ((vow_stage_two hZero rGood).1.inp)).take N =
        (hZero ((vow_stage_two hZero rGood).2.inp)).take N ∧
      (vow_stage_two hZero rGood).1.inp ≠ (vow_stage_two hZero rGood).2.inp) := by
  have hlen : ∀ m, N ≤ (hZero m).length := fun _ => by
    show N ≤ ZERO_HASH.length
    decide
  have hdeg : ¬ degenerate hZero rGood.x rGood.y rGood.x_steps rGood.y_steps := by
    simp only [degenerate]
    decide
  have main := C1_stage_two_collision hZero rGood hlen (by decide) (by decide)
    (by decide) (by decide)
  exact ⟨⟨hlen, by decide, by decide, by decide, by decide, hdeg⟩,
    main.1, main.2 hdeg⟩

/-- C7 (amended) — Stage 2 alignment: the `xs > ys` loop advances only the
x state, one step per decrement (symmetrically for `ys > xs`); both
counters finish at `min x_steps y_steps`; the chain whose counter was not
larger performs zero steps; AT MOST one of the two loops performs any
iterations — exactly one when `x_steps ≠ y_steps`, and NEITHER when
`x_steps = y_steps` (the latter refuting the claim's "exactly one"). -/
theorem C7_alignment (H : HashF) (x y : Bytes) (a b : Nat) :
    alignX H (StageTwoState.init H x) a b =
      ((StageTwoState.step H)^[a - min a b] (StageTwoState.init H x), min a b) ∧
    alignY H (StageTwoState.init H y) (min a b) b =
      ((StageTwoState.step H)^[b - min a b] (StageTwoState.init H y), min a b) ∧
    ¬(a - min a b ≠ 0 ∧ b - min a b ≠ 0) ∧
    (a ≠ b → (a - min a b ≠ 0 ∨ b - min a b ≠ 0)) := by
  refine ⟨by rw [alignX_eq], ?_, by omega, by omega⟩
  rw [alignY_eq]
  have hmin : min (min a b) b = min a b := by omega
  rw [hmin]

/-- C7 witness: the amended theorem at `x_steps = 3`, `y_steps = 1`. -/
theorem C7_alignment_witness :
    alignX hZero (StageTwoState.init hZero rGood.x) 3 1 =
      ((StageTwoState.step hZero)^[3 - min 3 1] (StageTwoState.init hZero rGood.x),
        min 3 1) ∧
    alignY hZero (StageTwoState.init hZero rGood.y) (min 3 1) 1 =
      ((StageTwoState.step hZero)^[1 - min 3 1] (StageTwoState.init hZero rGood.y),
        min 3 1) ∧
    ¬(3 - min 3 1 ≠ 0 ∧ 1 - min 3 1 ≠ 0) ∧
    ((3 : Nat) ≠ 1 → (3 - min 3 1 ≠ 0 ∨ 1 - min 3 1 ≠ 0)) :=
  C7_alignment hZero rGood.x rGood.y 3 1

/-- C7 counterexample — with `x_steps = y_steps = 3` NEITHER alignment
loop performs an iteration (both states come back unchanged), refuting the
claim that exactly one of the two alignment loops runs: "the x loop ran
and the y loop did not" is false, and so is "the y loop ran and the x loop
did not". -/
theorem C7_counterexample :
    alignX hZero (StageTwoState.init hZero rGood.x) 3 3 =
      (StageTwoState.init hZero rGood.x, 3) ∧
    alignY hZero (StageTwoState.init hZero rGood.y) 3 3 =
      (StageTwoState.init hZero rGood.y, 3) ∧
    ¬(((alignX hZero (StageTwoState.init hZero rGood.x) 3 3).1 ≠
          StageTwoState.init hZero rGood.x) ∧
        ¬((alignY hZero (StageTwoState.init hZero rGood.y) 3 3).1 ≠
          StageTwoState.init hZero rGood.y)) ∧
    ¬(¬((alignX hZero (StageTwoState.init hZero rGood.x) 3 3).1 ≠
          StageTwoState.init hZero rGood.x) ∧
        ((alignY hZero (StageTwoState.init hZero rGood.y) 3 3).1 ≠
          StageTwoState.init hZero rGood.y)) := by
  decide

/-- One chain-table entry: the `DP_KEY`'s stored digest plus the mapped
`std::tuple<HASH_IN<HASH>, std::size_t>` (chain start, chain length). -/
structure TEntry where
  key : Bytes
  start : Bytes
  len : Nat
deriving DecidableEq

/-- The `dp_map` chain table. -/
abbrev Table := List TEntry

/-- `dp_map.contains(k)` / `dp_map[k]` under the container's CONTRACT:
lookup by `DP_KEY::operator==` alone (equality of the first `N` digest
bytes).  This is the behaviour `std::unordered_map` guarantees when the
Hash requirement (equal keys hash equally) holds, and the semantics the
spec prescribes ("the equality test is authoritative").  The shipped
`std::hash<DP_KEY>` violates that requirement (see C4), so the compiled
program's lookup can MISS an equality-present key; the bucketing-faithful
model is `lookupHT` below, and the discrepancy is settled under C3 and
C4.  The C2 invariant is insensitive to which lookup is used. -/
def lookupT (t : Table) (d : Bytes) : Option TEntry :=
  t.find? (fun e => dpKeyEq e.key d)

/-- `dp_map[k] = std::make_tuple(start, len)` on a key not yet present. -/
def insertT (t : Table) (d start : Bytes) (len : Nat) : Table :=
  t ++ [⟨d, start, len⟩]

/-- Merging one worker's DP buffer (inner loop of the merge pass): on the
first record whose DP key is already in the table, stop with a
`StageOneResult`; otherwise insert ⟨`last_dp`, steps⟩ under the key and
chain `last_dp` forward to the formatted DP digest. -/
def mergeBuf : Table → Bytes → List DP → Table × Bytes × Option StageOneResult
  | t, ld, [] => (t, ld, none)
  | t, ld, r :: rest =>
      match lookupT t r.hash with
      | some e => (t, ld,
          some { x := e.start
                 x_steps := e.len
                 y := ld
                 y_steps := r.steps_since_last_dp
                 dp_collided := r.hash
                 found := true })
      | none => mergeBuf (insertT t r.hash ld r.steps_since_last_dp)
          (format_input r.hash) rest

/-- The merge pass over all workers, ascending worker index (outer loop of
lines 241–257); `lds` is the host `last_dp` array, `bufs` the snapshot of
the per-worker DP buffers. -/
def mergePass : Table → List Bytes → List (List DP) →
    Table × List Bytes × Option StageOneResult
  | t, [], _ => (t, [], none)
  | t, lds, [] => (t, lds, none)
  | t, ld :: lds, b :: bs =>
      match mergeBuf t ld b with
      | (t', ld', some res) => (t', ld' :: lds, some res)
      | (t', ld', none) =>
          let rest := mergePass t' lds bs
          (rest.1, ld' :: rest.2.1, rest.2.2)

/-- The pure insert-all fold over a buffer (no hit checks): what the merge
does to the table and to `last_dp[w]` while no collision fires. -/
def insFold (t : Table) (ld : Bytes) (recs : List DP) : Table × Bytes :=
  recs.foldl
    (fun p r => (insertT p.1 r.hash p.2 r.steps_since_last_dp, format_input r.hash))
    (t, ld)

lemma mergeBuf_char : ∀ (recs : List DP) (t : Table) (ld : Bytes),
    (∀ res, (mergeBuf t ld recs).2.2 = some res ↔
      ∃ j, j < recs.length ∧
        (∀ i, i < j →
          lookupT (insFold t ld (recs.take i)).1 (recs.getD i d0).hash = none) ∧
        ∃ e, lookupT (insFold t ld (recs.take j)).1 (recs.getD j d0).hash = some e ∧
          res = { x := e.start
                  x_steps := e.len
                  y := (insFold t ld (recs.take j)).2
                  y_steps := (recs.getD j d0).steps_since_last_dp
                  dp_collided := (recs.getD j d0).hash
                  found := true }) ∧
    ((mergeBuf t ld recs).2.2 = none →
      (mergeBuf t ld recs).1 = (insFold t ld recs).1 ∧
      (mergeBuf t ld recs).2.1 = (insFold t ld recs).2) := by
  intro recs
  induction recs with
  | nil =>
      intro t ld
      refine ⟨fun res => ⟨fun h => by simp [mergeBuf] at h, ?_⟩, fun _ => ⟨rfl, rfl⟩⟩
      rintro ⟨j, hj, -⟩
      simp at hj
  | cons r rest ih =>
      intro t ld
      cases hlk : lookupT t r.hash with
      | some e =>
          constructor
          · intro res
            constructor
            · intro h
              refine ⟨0, by simp, fun i hi => absurd hi (by omega), e, ?_, ?_⟩
              · simpa [insFold] using hlk
              · simp only [mergeBuf, hlk] at h
                exact (Option.some_injective _ h).symm
            · rintro ⟨j, hj, hmiss, e', hlk', hres⟩
              cases j with
              | zero =>
                  simp only [List.take_zero, insFold, List.foldl_nil,
                    List.getD_cons_zero] at hlk' hres
                  rw [hlk] at hlk'
                  cases hlk'
                  simp only [mergeBuf, hlk]
                  rw [hres]
              | succ j' =>
                  have h0 := hmiss 0 (by omega)
                  simp only [List.take_zero, insFold, List.foldl_nil,
                    List.getD_cons_zero] at h0
                  rw [hlk] at h0
                  cases h0
          · intro h
            simp [mergeBuf, hlk] at h
      | none =>
          have hstep : mergeBuf t ld (r :: rest) =
              mergeBuf (insertT t r.hash ld r.steps_since_last_dp)
                (format_input r.hash) rest := by
            simp only [mergeBuf, hlk]
          have hins : ∀ l, insFold t ld (r :: l) =
              insFold (insertT t r.hash ld r.steps_since_last_dp)
                (format_input r.hash) l := fun _ => rfl
          obtain ⟨ihsome, ihnone⟩ :=
            ih (insertT t r.hash ld r.steps_since_last_dp) (format_input r.hash)
          constructor
          · intro res
            rw [hstep, ihsome res]
            constructor
            · rintro ⟨j, hj, hmiss, e, hlk', hres⟩
              refine ⟨j + 1, by simpa using hj, ?_, e, ?_, ?_⟩
              · intro i hi
                cases i with
                | zero => simpa [insFold] using hlk
                | succ i' =>
                    have := hmiss i' (by omega)
                    simpa [hins] using this
              · simpa [hins] using hlk'
              · simpa [hins] using hres
            · rintro ⟨j, hj, hmiss, e, hlk', hres⟩
              cases j with
              | zero =>
                  simp only [List.take_zero, insFold, List.foldl_nil,
                    List.getD_cons_zero] at hlk'
                  rw [hlk] at hlk'
                  cases hlk'
              | succ j' =>
                  refine ⟨j', by simpa using hj, ?_, e, ?_, ?_⟩
                  · intro i hi
                    have := hmiss (i + 1) (by omega)
                    simpa [hins] using this
                  · simpa [hins] using hlk'
                  · simpa [hins] using hres
          · intro h
            rw [hstep] at h
            rw [hstep, hins]
            exact ihnone h

lemma mergePass_char : ∀ (bufs : List (List DP)) (lds : List Bytes) (t : Table),
    lds.length = bufs.length →
    ∀ res, (mergePass t lds bufs).2.2 = some res ↔
      ∃ i, i < bufs.length ∧
        (mergePass t (lds.take i) (bufs.take i)).2.2 = none ∧
        (mergeBuf (mergePass t (lds.take i) (bufs.take i)).1
          (lds.getD i []) (bufs.getD i [])).2.2 = some res := by
  intro bufs
  induction bufs with
  | nil =>
      intro lds t hlen res
      have : lds = [] := List.length_eq_zero.mp (by simpa using hlen)
      subst this
      refine ⟨fun h => by simp [mergePass] at h, ?_⟩
      rintro ⟨i, hi, -⟩
      simp at hi
  | cons b bs ih =>
      intro lds t hlen res
      cases lds with
      | nil => simp at hlen
      | cons ld lds' =>
          have hlen' : lds'.length = bs.length := by simpa using hlen
          rcases heq : mergeBuf t ld b with ⟨t', ld', r?⟩
          cases r? with
          | some res0 =>
              have hpass : mergePass t (ld :: lds') (b :: bs) =
                  (t', ld' :: lds', some res0) := by
                simp only [mergePass, heq]
              constructor
              · intro h
                rw [hpass] at h
                simp only at h
                cases h
                refine ⟨0, by simp, by simp [mergePass], ?_⟩
                simp [mergePass, heq]
              · rintro ⟨i, hi, hnone, hhit⟩
                cases i with
                | zero =>
                    simp only [List.take_zero, mergePass, List.getD_cons_zero]
                      at hhit
                    rw [hpass]
                    simp [heq] at hhit
                    simp [hhit]
                | succ i' =>
                    exfalso
                    simp [List.take_succ_cons, mergePass, heq] at hnone
          | none =>
              have hpass : mergePass t (ld :: lds') (b :: bs) =
                  ((mergePass t' lds' bs).1,
                    ld' :: (mergePass t' lds' bs).2.1,
                    (mergePass t' lds' bs).2.2) := by
                simp only [mergePass, heq]
              have hpren : ∀ i, mergePass t (ld :: lds'.take i) (b :: bs.take i) =
                  ((mergePass t' (lds'.take i) (bs.take i)).1,
                    ld' :: (mergePass t' (lds'.take i) (bs.take i)).2.1,
                    (mergePass t' (lds'.take i) (bs.take i)).2.2) := by
                intro i
                simp only [mergePass, heq]
              rw [hpass]
              simp only
              rw [ih lds' t' hlen' res]
              constructor
              · rintro ⟨i, hi, hnone, hhit⟩
                refine ⟨i + 1, by simpa using hi, ?_, ?_⟩
                · simp only [List.take_succ_cons, hpren]
                  exact hnone
                · simp only [List.take_succ_cons, hpren, List.getD_cons_succ]
                  exact hhit
              · rintro ⟨i, hi, hnone, hhit⟩
                cases i with
                | zero =>
                    exfalso
                    simp [List.take_zero, mergePass, heq] at hhit
                | succ i' =>
                    refine ⟨i', by simpa using hi, ?_, ?_⟩
                    · simp only [List.take_succ_cons, hpren] at hnone
                      exact hnone
                    · simp only [List.take_succ_cons, hpren, List.getD_cons_succ]
                        at hhit
                      exact hhit

/-- A lookup faithful to the source's `std::unordered_map` bucketing: the
probe key's bucket is chosen from `std::hash<DP_KEY>` (`dpKeyHash`, the
word over digest bytes `[K, K+8)`), and only the elements of that bucket
are compared with `operator==`.  Modelled for the generic case in which
distinct hash words occupy distinct buckets: an entry is found exactly
when both its stored digest's hash word and its first `N` bytes match the
probe's.  (Because the shipped hash reads bytes `[2, 10)` while equality
reads `[0, 8)` — the C4 bug — `operator==`-equal keys can have different
hash words; whenever the two words land in different buckets, which is
the generic case, the container never compares them and the lookup
misses the equal key.) -/
def lookupHT (t : Table) (d : Bytes) : Option TEntry :=
  t.find? (fun e => dpKeyHash e.key == dpKeyHash d && dpKeyEq e.key d)

/-- The merge of a worker's DP buffer as the compiled program performs it
(lines 243–256 with the real container semantics): identical to
`mergeBuf` except that presence is decided by the bucketing-faithful
`lookupHT`. -/
def mergeBufHT : Table → Bytes → List DP → Table × Bytes × Option StageOneResult
  | t, ld, [] => (t, ld, none)
  | t, ld, r :: rest =>
      match lookupHT t r.hash with
      | some e => (t, ld,
          some { x := e.start
                 x_steps := e.len
                 y := ld
                 y_steps := r.steps_since_last_dp
                 dp_collided := r.hash
                 found := true })
      | none => mergeBufHT (insertT t r.hash ld r.steps_since_last_dp)
          (format_input r.hash) rest

/-- A digest that is `DP_KEY`-equal to the all-zero digest (bytes 0..7
agree) but differs at byte 8, so its hash word differs. -/
def dC3 : Bytes := (List.replicate DIGEST_SIZE 0).set 8 1

/-- A chain table holding an entry under the all-zero DP key. -/
def tC3 : Table := [⟨ZERO_HASH, format_input (hash_from_seed_host 1), 4⟩]

/-- A worker's DP record whose digest is `dC3`: its DP key equals the
stored entry's key under `operator==`. -/
def recC3 : DP := ⟨format_input ZERO_HASH, dC3, 6⟩

/-- C3 — the claimed merge semantics ("if the DP key is already present,
Stage 1 terminates immediately returning the stored entry") is what the
spec intends but NOT what the code does: at this input the record's DP
key IS present in the table under `DP_KEY::operator==` (and the
equality-contract merge `mergeBuf` would terminate with a result), but
the stored key's bucket hash differs from the probe's, so the real
`unordered_map` lookup misses it, the merge returns NO result, inserts a
second `operator==`-equal key, and Stage 1 keeps running. -/
theorem C3_first_hit_missed :
    (∃ e ∈ tC3, dpKeyEq e.key recC3.hash = true) ∧
    lookupT tC3 recC3.hash = some ⟨ZERO_HASH, format_input (hash_from_seed_host 1), 4⟩ ∧
    (mergeBuf tC3 (format_input ZERO_HASH) [recC3]).2.2.isSome = true ∧
    dpKeyHash ZERO_HASH ≠ dpKeyHash recC3.hash ∧
    lookupHT tC3 recC3.hash = none ∧
    (mergeBufHT tC3 (format_input ZERO_HASH) [recC3]).2.2 = none ∧
    (mergeBufHT tC3 (format_input ZERO_HASH) [recC3]).1 =
      tC3 ++ [⟨dC3, format_input ZERO_HASH, 6⟩] := by
  decide

/-- Apply per-slot updates in the order in which a `parallel_for`'s
work-items happen to execute: each index `i` in `order` overwrites slot
`i` using only slot `i`'s previous value (`states[idx] = ...` in the
kernels). -/
def foldUpd {α : Type} (g : Nat → α) (f : Nat → α → α) : List Nat → Nat → α
  | [] => g
  | i :: rest => foldUpd (Function.update g i (f i (g i))) f rest

lemma foldUpd_eq {α : Type} (f : Nat → α → α) :
    ∀ (order : List Nat) (g : Nat → α), order.Nodup →
      foldUpd g f order = fun i => if i ∈ order then f i (g i) else g i := by
  intro order
  induction order with
  | nil => intro g _; funext i; simp [foldUpd]
  | cons o rest ih =>
      intro g hnd
      have hno : o ∉ rest := (List.nodup_cons.mp hnd).1
      have hnd' : rest.Nodup := (List.nodup_cons.mp hnd).2
      show foldUpd (Function.update g o (f o (g o))) f rest = _
      rw [ih _ hnd']
      funext i
      by_cases hir : i ∈ rest
      · have hio : i ≠ o := fun h => hno (h ▸ hir)
        simp [hir, Function.update_noteq hio, List.mem_cons, hio]
      · by_cases hio : i = o
        · subst hio
          simp [hir, Function.update_same]
        · simp [hir, Function.update_noteq hio, hio]

lemma foldUpd_perm {α : Type} (f : Nat → α → α) (g : Nat → α) (order : List Nat)
    (W : Nat) (h : order.Perm (List.range W)) :
    foldUpd g f order = foldUpd g f (List.range W) := by
  rw [foldUpd_eq f order g (h.symm.nodup (List.nodup_range W)),
    foldUpd_eq f (List.range W) g (List.nodup_range W)]
  funext i
  have hmem : i ∈ order ↔ i ∈ List.range W := h.mem_iff
  by_cases hi : i ∈ List.range W
  · simp [hi, hmem.mpr hi]
  · simp [hi, hmem]

/-- The whole Stage 1 host/device state between batch boundaries. -/
structure Sys where
  states : Nat → State
  last_dp : List Bytes
  dp_map : Table
  result : Option StageOneResult
  ok : Bool

/-- Worker body of the initial-batch kernel (lines 200–207):
`states[idx] = State(idx); device_dp_arrays[idx].dp_count = 0;` then
`BATCH_SIZE` steps. -/
def initWorker (H : HashF) (B : Nat) (i : Nat) : State := stepN H B (State.init H i)

/-- Worker body of every later batch kernel (lines 230–235):
`dp_count = 0;` then `BATCH_SIZE` steps on the existing state. -/
def batchWorker (H : HashF) (B : Nat) (s : State) : State := stepN H B s.clearBuf

/-- Did every worker's batch stay within the DP array capacity?  (Tracked
by the model because beyond it the C++ append writes out of bounds —
see C8.) -/
def batchOk (W : Nat) (states : Nat → State) : Bool :=
  (List.range W).all (fun i => (states i).buf.dp_count ≤ DP_ARRAY_LEN)

/-- State after the initial batch: every worker seeded from its index and
stepped `B` times; `last_dp[i] = format_input(hash_from_seed(i))` (host
loop, lines 209–211); empty chain table. -/
def initSys (H : HashF) (W B : Nat) (order : List Nat) : Sys :=
  let states := foldUpd (fun i => State.init H i) (fun i _ => initWorker H B i) order
  { states := states
    last_dp := (List.range W).map (fun i => format_input (hash_from_seed_host i))
    dp_map := []
    result := none
    ok := batchOk W states }

/-- One iteration of the while-loop (lines 216–260): snapshot the DP
buffers, total the hash counts, merge (stopping at the first collision),
and run the next batch on the device. -/
def roundSys (H : HashF) (W B : Nat) (order : List Nat) (sys : Sys) : Sys :=
  match sys.result with
  | some _ => sys
  | none =>
      let bufs := (List.range W).map (fun i => (sys.states i).buf.records)
      let total := ((List.range W).map (fun i => (sys.states i).hash_count)).sum
      let m := mergePass sys.dp_map sys.last_dp bufs
      let states' := foldUpd sys.states (fun _ s => batchWorker H B s) order
      match m.2.2 with
      | some res =>
          { sys with
            dp_map := m.1
            last_dp := m.2.1
            result := some { res with total_hash_counts := total } }
      | none =>
          { states := states'
            last_dp := m.2.1
            dp_map := m.1
            result := none
            ok := sys.ok && batchOk W states' }

/-- Stage 1 after the initial batch plus `r` merge rounds, the schedule
`sched m` giving the execution order of the `W` work-items of batch `m`. -/
def vow_stage_one (H : HashF) (W B : Nat) (sched : Nat → List Nat) : Nat → Sys
  | 0 => initSys H W B (sched 0)
  | r + 1 => roundSys H W B (sched (r + 1)) (vow_stage_one H W B sched r)

/-- The canonical schedule: every batch executes its work-items in
ascending index order. -/
def canonSched (W : Nat) : Nat → List Nat := fun _ => List.range W

lemma initSys_sched (H : HashF) (W B : Nat) (order : List Nat)
    (h : order.Perm (List.range W)) :
    initSys H W B order = initSys H W B (List.range W) := by
  unfold initSys
  rw [foldUpd_perm _ _ order W h]

lemma roundSys_sched (H : HashF) (W B : Nat) (order : List Nat)
    (h : order.Perm (List.range W)) (sys : Sys) :
    roundSys H W B order sys = roundSys H W B (List.range W) sys := by
  unfold roundSys
  cases sys.result with
  | some res => rfl
  | none =>
      simp only
      rw [foldUpd_perm _ _ order W h]

lemma vow_stage_one_sched (H : HashF) (W B : Nat) (sched : Nat → List Nat)
    (h : ∀ m, (sched m).Perm (List.range W)) :
    ∀ r, vow_stage_one H W B sched r = vow_stage_one H W B (canonSched W) r := by
  intro r
  induction r with
  | zero => exact initSys_sched H W B (sched 0) (h 0)
  | succ r ih =>
      show roundSys H W B (sched (r + 1)) (vow_stage_one H W B sched r) = _
      rw [ih, roundSys_sched H W B (sched (r + 1)) (h (r + 1))]
      rfl

/-- C9 — Stage 1 is deterministic: two runs with the same configuration
(hash, `W = THREADS` workers seeded `0..W-1`, `B = BATCH_SIZE`, batch
count) produce identical system states — in particular byte-identical
`x`, `x_steps`, `y`, `y_steps` and `dp_collided` — whatever order the
parallel work-items of each batch happen to execute in (any permutation
of the worker indices per batch). -/
theorem C9_stage_one_deterministic (H : HashF) (W B r : Nat)
    (s1 s2 : Nat → List Nat)
    (h1 : ∀ m, (s1 m).Perm (List.range W))
    (h2 : ∀ m, (s2 m).Perm (List.range W)) :
    vow_stage_one H W B s1 r = vow_stage_one H W B s2 r := by
  rw [vow_stage_one_sched H W B s1 h1 r, vow_stage_one_sched H W B s2 h2 r]

/-- C9 witness: a 2-worker run scheduled `[0,1]` against the same run
scheduled `[1,0]`. -/
theorem C9_stage_one_deterministic_witness :
    vow_stage_one hZero 2 1 (fun _ => [0, 1]) 1 =
      vow_stage_one hZero 2 1 (fun _ => [1, 0]) 1 := by
  have p1 : ([0, 1] : List Nat).Perm (List.range 2) := by decide
  have p2 : ([1, 0] : List Nat).Perm (List.range 2) := by decide
  exact C9_stage_one_deterministic hZero 2 1 1 (fun _ => [0, 1]) (fun _ => [1, 0])
    (fun _ => p1) (fun _ => p2)

/-- The chain-start input of worker `i`: the formatted seed digest. -/
def seedInput (i : Nat) : Bytes := format_input (hash_from_seed i)

/-- `bufChain H x0 p recs q`: the records `recs` are consecutive DPs of
the chain from input `x0`, the first sub-chain starting at chain position
`p` and the last DP sitting at position `q`; each record's digest is the
chain digest at its own position and its `steps_since_last_dp` is the
gap (≥ 1) to the previous DP (or to the anchor `p`). -/
def bufChain (H : HashF) (x0 : Bytes) : Nat → List DP → Nat → Prop
  | p, [], q => q = p
  | p, r :: rs, q =>
      1 ≤ r.steps_since_last_dp ∧
      r.hash = chainFrom H x0 (p + r.steps_since_last_dp - 1) ∧
      bufChain H x0 (p + r.steps_since_last_dp) rs q

/-- The chain-table invariant of claim C2: every entry's chain start,
iterated `len` times through f (first evaluation `H start`), gives
exactly the stored key digest, and `len ≥ 1`. -/
def TableInv (H : HashF) (t : Table) : Prop :=
  ∀ e ∈ t, 1 ≤ e.len ∧ chainFrom H e.start (e.len - 1) = e.key

/-- The walker invariant: the worker's digest is the chain digest at
position `hash_count`, its DP buffer is a well-formed record chain from
`anchor`, ending at the worker's last DP position
`hash_count - steps_since_last_dp`. -/
def WFb (H : HashF) (x0 : Bytes) (anchor : Nat) (s : State) : Prop :=
  1 ≤ s.hash_count ∧
  s.steps_since_last_dp ≤ s.hash_count ∧
  s.hash = chainFrom H x0 (s.hash_count - 1) ∧
  s.buf.data.length = DP_ARRAY_LEN ∧
  s.buf.dp_count = s.buf.records.length ∧
  bufChain H x0 anchor s.buf.records (s.hash_count - s.steps_since_last_dp)

lemma chainFrom_inputAt (H : HashF) (x0 : Bytes) :
    ∀ (j p : Nat), chainFrom H (inputAt H x0 p) j = chainFrom H x0 (p + j) := by
  intro j
  induction j with
  | zero =>
      intro p
      cases p with
      | zero => rfl
      | succ q => rfl
  | succ j ih =>
      intro p
      show fMap H (chainFrom H (inputAt H x0 p) j) = chainFrom H x0 (p + (j + 1))
      rw [ih p]
      rfl

lemma bufChain_append (H : HashF) (x0 : Bytes) :
    ∀ (recs : List DP) (p q : Nat) (r : DP),
      bufChain H x0 p recs q → 1 ≤ r.steps_since_last_dp →
      r.hash = chainFrom H x0 (q + r.steps_since_last_dp - 1) →
      bufChain H x0 p (recs ++ [r]) (q + r.steps_since_last_dp) := by
  intro recs
  induction recs with
  | nil =>
      intro p q r hb h1 h2
      cases hb
      exact ⟨h1, h2, rfl⟩
  | cons rr rs ih =>
      intro p q r hb h1 h2
      obtain ⟨ha, hh, hc⟩ := hb
      exact ⟨ha, hh, ih _ _ _ hc h1 h2⟩

lemma step_dp_eq (H : HashF) (s : State)
    (h : is_dpD (H (format_input s.hash)) = true) :
    State.step H s =
      { hash_count := s.hash_count + 1
        steps_since_last_dp := 0
        last_dp := format_input s.hash
        hash := H (format_input s.hash)
        buf := s.buf.append (format_input s.hash) (H (format_input s.hash))
                 (s.steps_since_last_dp + 1) } := by
  simp [State.step, h]

lemma step_nodp_eq (H : HashF) (s : State)
    (h : is_dpD (H (format_input s.hash)) = false) :
    State.step H s =
      { s with
        hash := H (format_input s.hash)
        steps_since_last_dp := s.steps_since_last_dp + 1
        hash_count := s.hash_count + 1 } := by
  simp [State.step, h]

lemma step_count_mono (H : HashF) (s : State) :
    s.buf.dp_count ≤ (State.step H s).buf.dp_count := by
  by_cases h : is_dpD (H (format_input s.hash)) = true
  · rw [step_dp_eq H s h]
    exact Nat.le_succ _
  · rw [step_nodp_eq H s (by simpa using h)]

lemma stepN_count_mono (H : HashF) (s : State) :
    ∀ n, s.buf.dp_count ≤ (stepN H n s).buf.dp_count := by
  intro n
  induction n with
  | zero => exact le_refl _
  | succ n ih =>
      have : stepN H (n + 1) s = State.step H (stepN H n s) :=
        Function.iterate_succ_apply' _ _ _
      rw [this]
      exact le_trans ih (step_count_mono H _)

lemma WFb_step (H : HashF) (x0 : Bytes) (anchor : Nat) (s : State)
    (hwf : WFb H x0 anchor s)
    (hroom : is_dpD (H (format_input s.hash)) = true →
      s.buf.dp_count < DP_ARRAY_LEN) :
    WFb H x0 anchor (State.step H s) := by
  obtain ⟨h1, h2, h3, h4, h5, h6⟩ := hwf
  by_cases hdp : is_dpD (H (format_input s.hash)) = true
  · have hcnt : s.buf.dp_count < s.buf.data.length := by
      rw [h4]; exact hroom hdp
    have hrec := DPArray.records_append s.buf (format_input s.hash)
      (H (format_input s.hash)) (s.steps_since_last_dp + 1) hcnt
    rw [step_dp_eq H s hdp]
    refine ⟨?_, ?_, ?_, ?_, ?_, ?_⟩
    · show 1 ≤ s.hash_count + 1
      omega
    · show 0 ≤ s.hash_count + 1
      omega
    · show H (format_input s.hash) = chainFrom H x0 (s.hash_count + 1 - 1)
      have e1 : s.hash_count + 1 - 1 = (s.hash_count - 1) + 1 := by omega
      rw [e1, h3]
      rfl
    · show (s.buf.data.set s.buf.dp_count _).length = DP_ARRAY_LEN
      rw [List.length_set]
      exact h4
    · show s.buf.dp_count + 1 = (s.buf.append (format_input s.hash)
        (H (format_input s.hash)) (s.steps_since_last_dp + 1)).records.length
      rw [hrec, List.length_append, ← h5]
      rfl
    · show bufChain H x0 anchor (s.buf.append (format_input s.hash)
        (H (format_input s.hash)) (s.steps_since_last_dp + 1)).records
        (s.hash_count + 1 - 0)
      rw [hrec]
      have e2 : s.hash_count + 1 - 0 =
          (s.hash_count - s.steps_since_last_dp) + (s.steps_since_last_dp + 1) := by
        omega
      rw [e2]
      refine bufChain_append H x0 _ _ _ _ h6
        (by show 1 ≤ s.steps_since_last_dp + 1; omega) ?_
      show H (format_input s.hash) = chainFrom H x0
        ((s.hash_count - s.steps_since_last_dp) + (s.steps_since_last_dp + 1) - 1)
      have e3 : (s.hash_count - s.steps_since_last_dp) +
          (s.steps_since_last_dp + 1) - 1 = (s.hash_count - 1) + 1 := by omega
      rw [e3, h3]
      rfl
  · rw [step_nodp_eq H s (by simpa using hdp)]
    refine ⟨?_, ?_, ?_, h4, h5, ?_⟩
    · show 1 ≤ s.hash_count + 1
      omega
    · show s.steps_since_last_dp + 1 ≤ s.hash_count + 1
      omega
    · show H (format_input s.hash) = chainFrom H x0 (s.hash_count + 1 - 1)
      have e1 : s.hash_count + 1 - 1 = (s.hash_count - 1) + 1 := by omega
      rw [e1, h3]
      rfl
    · show bufChain H x0 anchor s.buf.records
        (s.hash_count + 1 - (s.steps_since_last_dp + 1))
      have e : s.hash_count + 1 - (s.steps_since_last_dp + 1) =
          s.hash_count - s.steps_since_last_dp := by omega
      rw [e]
      exact h6

lemma step_count_dp (H : HashF) (s : State)
    (h : is_dpD (H (format_input s.hash)) = true) :
    (State.step H s).buf.dp_count = s.buf.dp_count + 1 := by
  rw [step_dp_eq H s h]
  rfl

lemma WFb_stepN (H : HashF) (x0 : Bytes) (anchor : Nat) (s : State) (B : Nat)
    (hwf : WFb H x0 anchor s)
    (hbound : (stepN H B s).buf.dp_count ≤ DP_ARRAY_LEN) :
    WFb H x0 anchor (stepN H B s) := by
  suffices h : ∀ k, k ≤ B → WFb H x0 anchor (stepN H k s) from h B (le_refl B)
  intro k
  induction k with
  | zero => exact fun _ => hwf
  | succ k ih =>
      intro hkB
      have wfk := ih (by omega)
      have hsucc : stepN H (k + 1) s = State.step H (stepN H k s) :=
        Function.iterate_succ_apply' _ _ _
      rw [hsucc]
      refine WFb_step H x0 anchor _ wfk ?_
      intro hdp
      have hc1 := step_count_dp H (stepN H k s) hdp
      have hsplit : stepN H B s = stepN H (B - (k + 1)) (stepN H (k + 1) s) := by
        have e : (B - (k + 1)) + (k + 1) = B := by omega
        calc stepN H B s = (State.step H)^[(B - (k + 1)) + (k + 1)] s := by rw [e]; rfl
        _ = (State.step H)^[B - (k + 1)] ((State.step H)^[k + 1] s) :=
            Function.iterate_add_apply _ _ _ _
      have hmono := stepN_count_mono H (stepN H (k + 1) s) (B - (k + 1))
      rw [← hsplit] at hmono
      rw [hsucc] at hmono
      omega

lemma WFb_clear (H : HashF) (x0 : Bytes) (anchor : Nat) (s : State)
    (hwf : WFb H x0 anchor s) :
    WFb H x0 (s.hash_count - s.steps_since_last_dp) s.clearBuf := by
  obtain ⟨h1, h2, h3, h4, h5, h6⟩ := hwf
  exact ⟨h1, h2, h3, h4, rfl, rfl⟩

lemma WFb_init (H : HashF) (i : Nat) : WFb H (seedInput i) 0 (State.init H i) := by
  refine ⟨le_refl 1, le_refl 1, rfl, ?_, rfl, rfl⟩
  show (List.replicate DP_ARRAY_LEN d0).length = DP_ARRAY_LEN
  exact List.length_replicate _ _

lemma mergeBuf_inv (H : HashF) : ∀ (recs : List DP) (t : Table) (ld : Bytes)
    (x0 : Bytes) (p q : Nat),
    TableInv H t → ld = inputAt H x0 p → bufChain H x0 p recs q →
    TableInv H (mergeBuf t ld recs).1 ∧
    ((mergeBuf t ld recs).2.2 = none → (mergeBuf t ld recs).2.1 = inputAt H x0 q) := by
  intro recs
  induction recs with
  | nil =>
      intro t ld x0 p q hT hld hbc
      have hqp : q = p := hbc
      subst hqp
      exact ⟨hT, fun _ => hld⟩
  | cons r rest ih =>
      intro t ld x0 p q hT hld hbc
      obtain ⟨h1, h2, h3⟩ := hbc
      cases hlk : lookupT t r.hash with
      | some e =>
          constructor
          · show TableInv H (mergeBuf t ld (r :: rest)).1
            simp only [mergeBuf, hlk]
            exact hT
          · intro h
            simp [mergeBuf, hlk] at h
      | none =>
          have hstep : mergeBuf t ld (r :: rest) =
              mergeBuf (insertT t r.hash ld r.steps_since_last_dp)
                (format_input r.hash) rest := by
            simp only [mergeBuf, hlk]
          rw [hstep]
          have hTins : TableInv H (insertT t r.hash ld r.steps_since_last_dp) := by
            intro e' he'
            rcases List.mem_append.mp he' with hold | hnew
            · exact hT e' hold
            · have : e' = ⟨r.hash, ld, r.steps_since_last_dp⟩ :=
                List.mem_singleton.mp hnew
              subst this
              refine ⟨h1, ?_⟩
              show chainFrom H ld (r.steps_since_last_dp - 1) = r.hash
              rw [hld, chainFrom_inputAt H x0 (r.steps_since_last_dp - 1) p]
              rw [h2]
              congr 1
              omega
          have hldnew : format_input r.hash =
              inputAt H x0 (p + r.steps_since_last_dp) := by
            have e2 : p + r.steps_since_last_dp =
                (p + r.steps_since_last_dp - 1) + 1 := by omega
            rw [e2]
            show format_input r.hash =
              format_input (chainFrom H x0 (p + r.steps_since_last_dp - 1))
            rw [h2]
          exact ih _ _ x0 (p + r.steps_since_last_dp) q hTins hldnew h3

lemma mergePass_inv (H : HashF) : ∀ (bufs : List (List DP)) (lds : List Bytes)
    (t : Table),
    TableInv H t → lds.length = bufs.length →
    (∀ i, i < bufs.length → ∃ x0 p q,
      lds.getD i [] = inputAt H x0 p ∧ bufChain H x0 p (bufs.getD i []) q) →
    TableInv H (mergePass t lds bufs).1 ∧
    (mergePass t lds bufs).2.1.length = lds.length ∧
    ((mergePass t lds bufs).2.2 = none →
      ∀ i, i < bufs.length → ∀ x0 p q,
        lds.getD i [] = inputAt H x0 p → bufChain H x0 p (bufs.getD i []) q →
        (mergePass t lds bufs).2.1.getD i [] = inputAt H x0 q) := by
  intro bufs
  induction bufs with
  | nil =>
      intro lds t hT hlen hw
      have : lds = [] := List.length_eq_zero.mp (by simpa using hlen)
      subst this
      exact ⟨hT, rfl, fun _ i hi => absurd hi (by simp)⟩
  | cons b bs ih =>
      intro lds t hT hlen hw
      cases lds with
      | nil => simp at hlen
      | cons ld lds' =>
          have hlen' : lds'.length = bs.length := by simpa using hlen
          obtain ⟨x0₀, p₀, q₀, hld0, hbc0⟩ := hw 0 (by simp)
          simp only [List.getD_cons_zero] at hld0 hbc0
          obtain ⟨hT1, hld1⟩ := mergeBuf_inv H b t ld x0₀ p₀ q₀ hT hld0 hbc0
          rcases heq : mergeBuf t ld b with ⟨t1, ld1, r?⟩
          rw [heq] at hT1 hld1
          simp only at hT1 hld1
          cases r? with
          | some res =>
              have hpass : mergePass t (ld :: lds') (b :: bs) =
                  (t1, ld1 :: lds', some res) := by
                simp only [mergePass, heq]
              rw [hpass]
              refine ⟨hT1, by simp, fun h => by simp at h⟩
          | none =>
              have hpass : mergePass t (ld :: lds') (b :: bs) =
                  ((mergePass t1 lds' bs).1,
                    ld1 :: (mergePass t1 lds' bs).2.1,
                    (mergePass t1 lds' bs).2.2) := by
                simp only [mergePass, heq]
              have hw' : ∀ i, i < bs.length → ∃ x0 p q,
                  lds'.getD i [] = inputAt H x0 p ∧
                  bufChain H x0 p (bs.getD i []) q := by
                intro i hi
                have := hw (i + 1) (by simpa using hi)
                simpa using this
              obtain ⟨ihT, ihlen, ihnone⟩ := ih lds' t1 hT1 hlen' hw'
              rw [hpass]
              refine ⟨ihT, by simpa using ihlen, ?_⟩
              intro hn i hi x0 p q hld hbc
              cases i with
              | zero =>
                  simp only [List.getD_cons_zero] at hld hbc ⊢
                  obtain ⟨-, hld1'⟩ := mergeBuf_inv H b t ld x0 p q hT hld hbc
                  rw [heq] at hld1'
                  simp only at hld1'
                  exact hld1' trivial
              | succ i' =>
                  simp only [List.getD_cons_succ] at hld hbc ⊢
                  simp only at hn
                  exact ihnone hn i' (by simpa using hi) x0 p q hld hbc

lemma getD_map_range {α : Type} (f : Nat → α) (W i : Nat) (h : i < W) (d : α) :
    ((List.range W).map f).getD i d = f i := by
  rw [List.getD_eq_getElem?_getD]
  rw [List.getElem?_map]
  rw [List.getElem?_range h]
  rfl

/-- The whole-system invariant of Stage 1 between batch boundaries. -/
def SysInv (H : HashF) (W : Nat) (sys : Sys) : Prop :=
  TableInv H sys.dp_map ∧ sys.last_dp.length = W ∧
  ∀ i, i < W → ∃ anchor,
    sys.last_dp.getD i [] = inputAt H (seedInput i) anchor ∧
    WFb H (seedInput i) anchor (sys.states i)

lemma batchOk_true (W : Nat) (states : Nat → State) (h : batchOk W states = true)
    (i : Nat) (hi : i < W) : (states i).buf.dp_count ≤ DP_ARRAY_LEN := by
  unfold batchOk at h
  rw [List.all_eq_true] at h
  have := h i (List.mem_range.mpr hi)
  simpa using this

lemma ok_prev (H : HashF) (W B : Nat) (order : List Nat) (sys : Sys)
    (h : (roundSys H W B order sys).ok = true) : sys.ok = true := by
  cases hres : sys.result with
  | some r => simpa [roundSys, hres] using h
  | none =>
      simp only [roundSys, hres] at h
      rcases hm : (mergePass sys.dp_map sys.last_dp
          ((List.range W).map (fun i => (sys.states i).buf.records))).2.2 with - | res
      · rw [hm] at h
        simp only at h
        simp at h
        exact h.1
      · rw [hm] at h
        simpa using h

lemma initSys_inv (H : HashF) (W B : Nat) (hW : W ≤ 2 ^ 32)
    (hok : (initSys H W B (List.range W)).ok = true) :
    SysInv H W (initSys H W B (List.range W)) := by
  have hstates : ∀ i, i < W →
      (initSys H W B (List.range W)).states i = initWorker H B i := by
    intro i hi
    show foldUpd _ _ (List.range W) i = _
    rw [foldUpd_eq _ _ _ (List.nodup_range W)]
    simp [List.mem_range.mpr hi]
  refine ⟨fun e he => absurd he (List.not_mem_nil e), by simp [initSys], ?_⟩
  intro i hi
  refine ⟨0, ?_, ?_⟩
  · show ((List.range W).map
        (fun j => format_input (hash_from_seed_host j))).getD i [] = _
    rw [getD_map_range _ W i hi]
    rw [hash_from_seed_host_eq i (by omega)]
    rfl
  · rw [hstates i hi]
    refine WFb_stepN H _ 0 _ B (WFb_init H i) ?_
    have hok' : batchOk W (initSys H W B (List.range W)).states = true := hok
    have hb := batchOk_true W _ hok' i hi
    rw [hstates i hi] at hb
    exact hb

lemma roundSys_inv (H : HashF) (W B : Nat) (sys : Sys)
    (hres : sys.result = none) (hinv : SysInv H W sys) :
    TableInv H (roundSys H W B (List.range W) sys).dp_map ∧
    ((roundSys H W B (List.range W) sys).result = none →
      (roundSys H W B (List.range W) sys).ok = true →
      SysInv H W (roundSys H W B (List.range W) sys)) := by
  obtain ⟨hT, hlen, hwork⟩ := hinv
  have hbget : ∀ i, i < W →
      ((List.range W).map (fun j => (sys.states j).buf.records)).getD i [] =
        (sys.states i).buf.records :=
    fun i hi => getD_map_range _ W i hi []
  have hblen : ((List.range W).map (fun j => (sys.states j).buf.records)).length
      = W := by simp
  have hldlen : sys.last_dp.length =
      ((List.range W).map (fun j => (sys.states j).buf.records)).length := by
    rw [hlen, hblen]
  have hperW : ∀ i,
      i < ((List.range W).map (fun j => (sys.states j).buf.records)).length →
      ∃ x0 p q, sys.last_dp.getD i [] = inputAt H x0 p ∧
        bufChain H x0 p
          (((List.range W).map (fun j => (sys.states j).buf.records)).getD i []) q := by
    intro i hi
    rw [hblen] at hi
    obtain ⟨anchor, hld, hwf⟩ := hwork i hi
    exact ⟨seedInput i, anchor,
      (sys.states i).hash_count - (sys.states i).steps_since_last_dp, hld,
      by rw [hbget i hi]; exact hwf.2.2.2.2.2⟩
  obtain ⟨hT', hlen', hnone⟩ := mergePass_inv H
    ((List.range W).map (fun j => (sys.states j).buf.records))
    sys.last_dp sys.dp_map hT hldlen hperW
  rcases hm : (mergePass sys.dp_map sys.last_dp
      ((List.range W).map (fun j => (sys.states j).buf.records))).2.2 with - | res
  · -- no collision this round: the next batch runs
    have hround : roundSys H W B (List.range W) sys =
        { states := foldUpd sys.states (fun _ s => batchWorker H B s) (List.range W)
          last_dp := (mergePass sys.dp_map sys.last_dp
            ((List.range W).map (fun j => (sys.states j).buf.records))).2.1
          dp_map := (mergePass sys.dp_map sys.last_dp
            ((List.range W).map (fun j => (sys.states j).buf.records))).1
          result := none
          ok := sys.ok && batchOk W
            (foldUpd sys.states (fun _ s => batchWorker H B s) (List.range W)) } := by
      simp only [roundSys, hres, hm]
    rw [hround]
    refine ⟨hT', ?_⟩
    intro _ hok'
    simp only at hok'
    simp at hok'
    have hbatchok := hok'.2
    have hstates' : ∀ i, i < W →
        foldUpd sys.states (fun _ s => batchWorker H B s) (List.range W) i =
          batchWorker H B (sys.states i) := by
      intro i hi
      rw [foldUpd_eq _ _ _ (List.nodup_range W)]
      simp [List.mem_range.mpr hi]
    refine ⟨hT', by rw [hlen', hlen], ?_⟩
    intro i hi
    obtain ⟨anchor, hld, hwf⟩ := hwork i hi
    refine ⟨(sys.states i).hash_count - (sys.states i).steps_since_last_dp, ?_, ?_⟩
    · exact hnone hm i (by rw [hblen]; exact hi) (seedInput i) anchor _ hld
        (by rw [hbget i hi]; exact hwf.2.2.2.2.2)
    · show WFb H (seedInput i) _
        (foldUpd sys.states (fun _ s => batchWorker H B s) (List.range W) i)
      rw [hstates' i hi]
      refine WFb_stepN H _ _ _ B (WFb_clear H _ anchor _ hwf) ?_
      have hb := batchOk_true W _ hbatchok i hi
      rw [hstates' i hi] at hb
      exact hb
  · -- collision: Stage 1 ends; the table still satisfies the invariant
    have hround : (roundSys H W B (List.range W) sys).dp_map =
        (mergePass sys.dp_map sys.last_dp
          ((List.range W).map (fun j => (sys.states j).buf.records))).1 ∧
        (roundSys H W B (List.range W) sys).result =
          some { res with total_hash_counts :=
            ((List.range W).map (fun i => (sys.states i).hash_count)).sum } := by
      constructor <;> simp only [roundSys, hres, hm]
    refine ⟨by rw [hround.1]; exact hT', ?_⟩
    intro hcontra
    rw [hround.2] at hcontra
    cases hcontra

lemma stage1_inv (H : HashF) (W B : Nat) (hW : W ≤ 2 ^ 32) :
    ∀ r, (vow_stage_one H W B (canonSched W) r).ok = true →
      TableInv H (vow_stage_one H W B (canonSched W) r).dp_map ∧
      ((vow_stage_one H W B (canonSched W) r).result = none →
        SysInv H W (vow_stage_one H W B (canonSched W) r)) := by
  intro r
  induction r with
  | zero =>
      intro hok
      refine ⟨fun e he => absurd he (List.not_mem_nil e), fun _ => ?_⟩
      exact initSys_inv H W B hW hok
  | succ r ih =>
      intro hok
      have hstep : vow_stage_one H W B (canonSched W) (r + 1) =
          roundSys H W B (List.range W) (vow_stage_one H W B (canonSched W) r) :=
        rfl
      have hprev : (vow_stage_one H W B (canonSched W) r).ok = true := by
        refine ok_prev H W B (List.range W) _ ?_
        rw [← hstep]
        exact hok
      obtain ⟨hTprev, hSprev⟩ := ih hprev
      cases hres : (vow_stage_one H W B (canonSched W) r).result with
      | some res =>
          have hsame : vow_stage_one H W B (canonSched W) (r + 1) =
              vow_stage_one H W B (canonSched W) r := by
            rw [hstep]
            simp [roundSys, hres]
          rw [hsame]
          refine ⟨hTprev, fun hcontra => absurd hcontra (by rw [hres]; simp)⟩
      | none =>
          have h2 := roundSys_inv H W B _ hres (hSprev hres)
          rw [hstep] at hok ⊢
          exact ⟨h2.1, fun hres' => h2.2 hres' hok⟩

/-- C2 — chain-table invariant: in any (overflow-free) Stage 1 run of `W ≤
2^32` workers, every entry ⟨start, length⟩ inserted into the chain table
under key `k` satisfies: iterating the fixed-point map from `start` exactly
`length` times — the first evaluation being `H start`, i.e. the digest
`chainFrom H start (length - 1)` — yields a digest whose first `N` bytes
equal those of `k` (`length ≥ 1` always).  This covers both the
initial-batch entries (whose start is the formatted seed input) and the
entries chained from a worker's previous DP via
`last_dp[w] = format(previous DP digest)`. -/
theorem C2_chain_table_invariant (H : HashF) (W B r : Nat) (hW : W ≤ 2 ^ 32)
    (hok : (vow_stage_one H W B (canonSched W) r).ok = true)
    (e : TEntry) (he : e ∈ (vow_stage_one H W B (canonSched W) r).dp_map) :
    1 ≤ e.len ∧ (chainFrom H e.start (e.len - 1)).take N = e.key.take N := by
  obtain ⟨hT, -⟩ := stage1_inv H W B hW r hok
  obtain ⟨h1, h2⟩ := hT e he
  exact ⟨h1, by rw [h2]⟩

/-- The concrete entry produced by a 1-worker, 1-step-per-batch run under
`hZero` after its first merge. -/
def eW : TEntry := ⟨ZERO_HASH, format_input (hash_from_seed_host 0), 2⟩

/-- C2 witness: the theorem applied to the single entry of a concrete
1-worker run, all hypotheses evaluated. -/
theorem C2_chain_table_invariant_witness :
    (1 ≤ 2 ^ 32 ∧ (vow_stage_one hZero 1 1 (canonSched 1) 1).ok = true ∧
      eW ∈ (vow_stage_one hZero 1 1 (canonSched 1) 1).dp_map) ∧
    (1 ≤ eW.len ∧ (chainFrom hZero eW.start (eW.len - 1)).take N = eW.key.take N) :=
  ⟨⟨by decide, by decide, by decide⟩,
    C2_chain_table_invariant hZero 1 1 1 (by decide) (by decide) eW (by decide)⟩

end VOW
